import Mathlib

/-!
A shallow embedding of the schizoid chat-bot core (model.go and brain.go):
a character-level n-gram language model with additive smoothing and
stupid backoff, plus the per-channel trained-span bookkeeping that makes
message observation idempotent.

Modelling conventions:
* Go strings are `List Char` (rune sequences); the Go builtin `len` on a
  string counts UTF-8 bytes, which is modelled by `byteLen`.
* `Token` (a Go `int`) is `ℤ`; the unknown sentinel is `-1`.
* The Go map `Counts map[string]uint64` is modelled as a total function
  `List Char → ℕ`: every read in the source (`m.Counts[k]`, and the
  `exists` + `count > 0` pair in `forget`) treats an absent key exactly
  like a stored zero.  Counter wrap-around of `uint64` is not modelled;
  no theorem below depends on counts anywhere near `2^64`.
* `float64` is modelled by `ℚ` (exact arithmetic); the random draw of
  `rand.Float64()` becomes an explicit parameter `u : ℚ`, and `generate`
  takes a stream `us : ℕ → ℚ` of draws.
* A Go run-time abort (the slice-bound violation reachable in `probs`)
  is modelled by `Option`: `none` is the aborted computation.
-/

/-- Number of bytes of the UTF-8 encoding of one rune. -/
def utf8Len (c : Char) : ℕ :=
  if c.toNat < 128 then 1
  else if c.toNat < 2048 then 2
  else if c.toNat < 65536 then 3
  else 4

/-- Go `len(s)` on a string: the UTF-8 byte length. -/
def byteLen (s : List Char) : ℕ := (s.map utf8Len).sum

/-- Go `strings.IndexRune(string(vocab), r)`: the BYTE index of the first
occurrence of `r` in the UTF-8 encoding of the vocabulary, `-1` if absent.
For an all-ASCII vocabulary this coincides with the rune index. -/
def byteIdx : List Char → Char → ℤ
  | [], _ => -1
  | c :: rest, r =>
    if c = r then 0
    else
      let i := byteIdx rest r
      if i < 0 then -1 else (utf8Len c : ℤ) + i

/-- The default special token `<|endoftext|>` as a rune list. -/
def eotStr : List Char := ['<', '|', 'e', 'n', 'd', 'o', 'f', 't', 'e', 'x', 't', '|', '>']

/-- CharTokenizer from model.go: a grown vocabulary of runes plus the
special-token display strings (strings, so `List (List Char)`). -/
structure CharTokenizer where
  vocab : List Char
  special : List (List Char)
deriving DecidableEq

/-- `VocabSize`: special-token count plus vocabulary length. -/
def CharTokenizer.VocabSize (c : CharTokenizer) : ℕ :=
  c.special.length + c.vocab.length

/-- `Encode`: one token per rune; a known rune maps to its
`strings.IndexRune` position shifted by the special-token count, an
unknown rune maps to `-1`. -/
def CharTokenizer.Encode (c : CharTokenizer) (text : List Char) : List ℤ :=
  text.map fun r =>
    let tok := byteIdx c.vocab r
    if 0 ≤ tok then tok + c.special.length else tok

/-- `Decode`: out-of-range ids render the replacement rune, ids at or above
the special count index the vocabulary (by rune position), lower ids render
the special-token string. -/
def CharTokenizer.Decode (c : CharTokenizer) (tokens : List ℤ) : List Char :=
  tokens.foldr
    (fun tok acc =>
      (if tok < 0 ∨ (c.VocabSize : ℤ) ≤ tok then ['�']
       else if (c.special.length : ℤ) ≤ tok then
         [c.vocab.getD (tok - c.special.length).toNat '�']
       else c.special.getD tok.toNat []) ++ acc)
    []

/-- `Observe`: append every rune of `text` not already present, in
first-seen order. -/
def CharTokenizer.Observe (c : CharTokenizer) (text : List Char) : CharTokenizer :=
  { c with vocab := text.foldl (fun v r => if v.contains r then v else v ++ [r]) c.vocab }

/-- Pointwise update of the counts table. -/
def setCount (c : List Char → ℕ) (k : List Char) (v : ℕ) : List Char → ℕ :=
  fun q => if q = k then v else c q

/-- Increment the table once per key occurrence, in list order
(the `m.Counts[...]++` loop of `train`). -/
def bumpList (c : List Char → ℕ) (ks : List (List Char)) : List Char → ℕ :=
  ks.foldl (fun c k => setCount c k (c k + 1)) c

/-- Decrement the table once per key occurrence, floored at zero
(the `exists` plus `count > 0` guarded `m.Counts[key]--` loop of `forget`). -/
def dropList (c : List Char → ℕ) (ks : List (List Char)) : List Char → ℕ :=
  ks.foldl (fun c k => if 0 < c k then setCount c k (c k - 1) else c) c

/-- `ngrams(tokens, n)`: all contiguous length-`n` slices; empty when
`n > len(tokens)` or `n <= 0`. -/
def ngrams (tokens : List ℤ) (n : ℕ) : List (List ℤ) :=
  if tokens.length < n ∨ n = 0 then []
  else (List.range (tokens.length - n + 1)).map fun i => (tokens.drop i).take n

/-- The decoded keys of every n-gram of every order `0..N`, in the order the
two nested loops of `train` and `forget` visit them. -/
def allKeys (tk : CharTokenizer) (tokens : List ℤ) (N : ℕ) : List (List Char) :=
  (List.range (N + 1)).foldr (fun n acc => (ngrams tokens n).map tk.Decode ++ acc) []

/-- NgramModel from model.go. -/
structure NgramModel where
  counts : List Char → ℕ
  tok : CharTokenizer
  N : ℕ
  smoothing : ℚ

/-- `train`: no-op on empty text; otherwise observe the text, encode it,
append the end-of-text token `0`, and bump the key of every n-gram of
every order `0..N`. -/
def NgramModel.train (m : NgramModel) (sample : List Char) : NgramModel :=
  if sample = [] then m
  else
    let tk := m.tok.Observe sample
    let tokens := tk.Encode sample ++ [0]
    { m with tok := tk, counts := bumpList m.counts (allKeys tk tokens m.N) }

/-- `forget`: no-op on empty text; otherwise encode (no vocabulary growth),
append the end-of-text token, and floored-decrement the same keys. -/
def NgramModel.forget (m : NgramModel) (text : List Char) : NgramModel :=
  if text = [] then m
  else
    let tokens := m.tok.Encode text ++ [0]
    { m with counts := dropList m.counts (allKeys m.tok tokens m.N) }

/-- `countOf(ctx, nMin)`: backoff lookup.  Look up the decoded key; while the
count is zero and the context is longer than `nMin`, drop the leftmost token
and retry; an emptied context yields 0. -/
def NgramModel.countOf (m : NgramModel) : List ℤ → ℕ → ℕ
  | [], _ => 0
  | h :: rest, nMin =>
    let count := m.counts (m.tok.Decode (h :: rest))
    if count = 0 ∧ nMin < (h :: rest).length then m.countOf rest nMin
    else count

/-- The context `probs` queries: the last `N-1` encoded symbols of the text
(the Go slice `context[len(context)-m.N+1:]`). -/
def NgramModel.probsContext (m : NgramModel) (text : List Char) : List ℤ :=
  let context := m.tok.Encode text
  context.drop (context.length - (m.N - 1))

/-- The Go local `total` of `probs`: the backoff count of the context plus
`VocabSize * Smoothing`. -/
def probsTotal (m : NgramModel) (context : List ℤ) : ℚ :=
  (m.countOf context m.N : ℚ) + (m.tok.VocabSize : ℚ) * m.smoothing

/-- The vector `probs` builds: one entry per symbol id `0..VocabSize-1`,
with the loop-invariant `total > 0` test of the source. -/
def probsEntries (m : NgramModel) (context : List ℤ) : List ℚ :=
  (List.range m.tok.VocabSize).map fun i : ℕ =>
    if 0 < probsTotal m context
    then ((m.countOf (context ++ [(i : ℤ)]) m.N : ℚ) + m.smoothing) / probsTotal m context
    else 0

/-- `probs(text)`: the smoothed distribution over all `VocabSize` symbol ids.
The Go slice expression `context[len(context)-m.N+1:]` aborts the process
when the encoded text has fewer than `N-1` symbols (negative low bound) or
when `N = 0` (low bound past the length); those cases are `none` here. -/
def NgramModel.probs (m : NgramModel) (text : List Char) : Option (List ℚ) :=
  if 1 ≤ m.N ∧ m.N - 1 ≤ (m.tok.Encode text).length
  then some (probsEntries m (m.probsContext text))
  else none

/-- The index walk of `sample`: return the first index whose entry exceeds
the remaining mass `r`; fall through to `0` past the end. -/
def sampleLoop : List ℚ → ℚ → ℕ → ℕ
  | [], _, _ => 0
  | p :: rest, r, i => if r < p then i else sampleLoop rest (r - p) (i + 1)

/-- `sample(probs)` with the `rand.Float64()` draw made explicit as `u`:
`0` on an empty vector, otherwise walk with initial mass `u * total`. -/
def sample (probs : List ℚ) (u : ℚ) : ℕ :=
  if probs = [] then 0
  else sampleLoop probs (u * probs.sum) 0

/-- The sampling loop of `generate`: at each of up to `fuel` steps compute
the distribution (propagating the `probs` abort), sample, stop on the
end-of-text id `0`, otherwise append the decoded symbol. -/
def genLoop (m : NgramModel) : ℕ → List Char → (ℕ → ℚ) → Option (List Char)
  | 0, out, _ => some out
  | fuel + 1, out, us =>
    match m.probs out with
    | none => none
    | some ps =>
      let sampled := sample ps (us 0)
      let next := m.tok.Decode [(sampled : ℤ)]
      if sampled = 0 then some out
      else genLoop m fuel (out ++ next) fun n => us (n + 1)

/-- `generate(seed, length)`: empty result when the seed has fewer than
`N-1` BYTES (Go `len(seed) < m.N-1`), otherwise up to `length` sampled
symbols appended to the seed. -/
def NgramModel.generate (m : NgramModel) (seed : List Char) (length : ℕ)
    (us : ℕ → ℚ) : Option (List Char) :=
  if (byteLen seed : ℤ) < (m.N : ℤ) - 1 then some []
  else genLoop m length seed us

/-- The model a fresh Brain owns: `NewNgramModel(NewCharTokenizer([]), 5, 0)`
with the defaulted single special token. -/
def newBrainModel : NgramModel :=
  { counts := fun _ => 0, tok := ⟨[], [eotStr]⟩, N := 5, smoothing := 0 }

/-- Inbound message shape consumed by the Brain (discord.Message fields the
core reads): content, bot flag of the author, channel id, message id and
creation time.  `time.Time` is modelled by `ℤ` with `After`/`Before`/`Equal`
as `<`/`>`/`=`; snowflake ids are `ℕ`. -/
structure Message where
  content : List Char
  authorBot : Bool
  channelID : ℕ
  id : ℕ
  createdAt : ℤ
deriving DecidableEq

/-- TrainedSpan from brain.go.  The Go fields `Start`, `End`, `StartID`,
`EndID` are `start`, `stop`, `startID`, `stopID` (`end` is a Lean keyword). -/
structure TrainedSpan where
  start : ℤ
  stop : ℤ
  startID : ℕ
  stopID : ℕ
deriving DecidableEq

/-- `DuringSpan(t)`: strictly inside the interval, or equal to either
boundary. -/
def TrainedSpan.DuringSpan (ts : TrainedSpan) (t : ℤ) : Bool :=
  (decide (ts.start < t) && decide (t < ts.stop)) || decide (t = ts.start)
    || decide (t = ts.stop)

/-- `ExtendSpan(msg)`: push the end forward when the message is later, push
the start backward when it is earlier (both checks read the original
fields, as the two sequential `if`s in the source touch disjoint fields). -/
def TrainedSpan.ExtendSpan (ts : TrainedSpan) (msg : Message) : TrainedSpan :=
  let t := msg.createdAt
  let ts1 := if ts.stop < t then { ts with stop := t, stopID := msg.id } else ts
  if t < ts1.start then { ts1 with start := t, startID := msg.id } else ts1

/-- `Union(other)`: take the earlier start and the later end, copying the
corresponding boundary ids. -/
def TrainedSpan.Union (ts other : TrainedSpan) : TrainedSpan :=
  let ts1 :=
    if other.start < ts.start then { ts with start := other.start, startID := other.startID }
    else ts
  if other.stop > ts1.stop then { ts1 with stop := other.stop, stopID := other.stopID }
  else ts1

/-- `makeSpan(msg)`: the degenerate span of a single message. -/
def makeSpan (msg : Message) : TrainedSpan :=
  { start := msg.createdAt, stop := msg.createdAt, startID := msg.id, stopID := msg.id }

/-- Brain from brain.go: the shared model plus the channel-to-span map (a
missing entry is the Go `nil` pointer, hence `Option`).  The mutex and the
guild id play no role in the sequential semantics. -/
structure Brain where
  model : NgramModel
  trainedSpans : ℕ → Option TrainedSpan

/-- `shouldObserve`: reject bot authors and empty content.  (The Go method
ignores its receiver.) -/
def shouldObserve (obs : Message) : Bool :=
  !obs.authorBot && !obs.content.isEmpty

/-- `Brain.observe`: return unchanged when the channel span already covers
the message time; otherwise train on qualifying content, then create or
extend the channel span. -/
def Brain.observe (b : Brain) (obs : Message) : Brain :=
  match b.trainedSpans obs.channelID with
  | some sp =>
    if sp.DuringSpan obs.createdAt then b
    else
      let b1 := if shouldObserve obs then { b with model := b.model.train obs.content } else b
      { b1 with trainedSpans := fun ch =>
          if ch = obs.channelID then some (sp.ExtendSpan obs) else b1.trainedSpans ch }
  | none =>
    let b1 := if shouldObserve obs then { b with model := b.model.train obs.content } else b
    { b1 with trainedSpans := fun ch =>
        if ch = obs.channelID then some (makeSpan obs) else b1.trainedSpans ch }

/-- `NewBrain`: fresh model, no spans. -/
def newBrain : Brain :=
  { model := newBrainModel, trainedSpans := fun _ => none }

/-- A span option "allows" a time when it is absent or does not cover the
time (the situations in which `Brain.observe` does not return early). -/
def spanAllows : Option TrainedSpan → ℤ → Bool
  | none, _ => true
  | some sp, t => !sp.DuringSpan t

/-- Multiplicity of a key in a key list. -/
def occCount (k : List Char) : List (List Char) → ℕ
  | [] => 0
  | q :: rest => (if q = k then 1 else 0) + occCount k rest

/-- The key multiset `train(text)` bumps: every order `0..N` n-gram of the
encoded text plus end-of-text token, decoded with the observed tokenizer. -/
def trainKeys (m : NgramModel) (text : List Char) : List (List Char) :=
  allKeys (m.tok.Observe text) ((m.tok.Observe text).Encode text ++ [0]) m.N

/-- The key multiset `forget(text)` decrements (same enumeration, current
tokenizer). -/
def forgetKeys (m : NgramModel) (text : List Char) : List (List Char) :=
  allKeys m.tok (m.tok.Encode text ++ [0]) m.N

/-- The C6 scenario model: empty tokenizer with the single defaulted
end-of-text special token, `N = 3`, no smoothing. -/
def modelC6 : NgramModel :=
  { counts := fun _ => 0, tok := ⟨[], [eotStr]⟩, N := 3, smoothing := 0 }

/-- The C6 scenario after training on "ab". -/
def trainC6 : NgramModel := modelC6.train ['a', 'b']

/-- Spec-side description of `countOf`, following the words of the spec:
scan the suffixes of the context from longest to shortest, stop at the
first one whose count is non-zero or whose length no longer exceeds
`minContextLen`, and return the count there (so 0 when the stop was forced
by `minContextLen`); return 0 when the context empties with no stop. -/
def countOfSpec (m : NgramModel) (ctx : List ℤ) (nMin : ℕ) : ℕ :=
  match ((List.range ctx.length).map fun i => ctx.drop i).find?
      (fun s => decide (m.counts (m.tok.Decode s) ≠ 0 ∨ s.length ≤ nMin)) with
  | some s => m.counts (m.tok.Decode s)
  | none => 0

/-- A single direct table lookup, with no backoff at all (an empty context
reads no entry and yields 0, mirroring the empty-context early exit). -/
def lookupNoBackoff (m : NgramModel) (ctx : List ℤ) : ℕ :=
  if ctx = [] then 0 else m.counts (m.tok.Decode ctx)

/-- The denominator of `probsDirect`. -/
def probsDirectTotal (m : NgramModel) (context : List ℤ) : ℚ :=
  (lookupNoBackoff m context : ℚ) + (m.tok.VocabSize : ℚ) * m.smoothing

/-- The entry vector of `probsDirect`. -/
def probsDirectEntries (m : NgramModel) (context : List ℤ) : List ℚ :=
  (List.range m.tok.VocabSize).map fun i : ℕ =>
    if 0 < probsDirectTotal m context
    then ((lookupNoBackoff m (context ++ [(i : ℤ)]) : ℚ) + m.smoothing) / probsDirectTotal m context
    else 0

/-- Mirror of `probs` with every `countOf` replaced by the direct single
lookup `lookupNoBackoff`. -/
def probsDirect (m : NgramModel) (text : List Char) : Option (List ℚ) :=
  if 1 ≤ m.N ∧ m.N - 1 ≤ (m.tok.Encode text).length
  then some (probsDirectEntries m (m.probsContext text))
  else none

/-- The C3 scenario model: like the fresh brain model but with `N = 3` and
additive smoothing 1. -/
def modelC3 : NgramModel :=
  { counts := fun _ => 0, tok := ⟨[], [eotStr]⟩, N := 3, smoothing := 1 }

/-- The C3 scenario model after training on "ab". -/
def trainC3 : NgramModel := modelC3.train ['a', 'b']

-- quick sanity checks of the embedding on concrete data (claim C6 scenario)
example :
    ((⟨[], [eotStr]⟩ : CharTokenizer).Observe ['a', 'b']).vocab = ['a', 'b'] := by decide
example :
    (NgramModel.train ⟨fun _ => 0, ⟨[], [eotStr]⟩, 3, 0⟩ ['a', 'b']).counts ['a', 'b'] = 1 := by
  decide

/-! ## Helper lemmas about spans and observation -/

theorem duringSpan_iff (ts : TrainedSpan) (t : ℤ) :
    ts.DuringSpan t = true ↔ (ts.start < t ∧ t < ts.stop) ∨ t = ts.start ∨ t = ts.stop := by
  simp [TrainedSpan.DuringSpan, or_assoc]

theorem duringSpan_makeSpan (msg : Message) :
    (makeSpan msg).DuringSpan msg.createdAt = true := by
  simp [duringSpan_iff, makeSpan]

theorem duringSpan_extendSpan (ts : TrainedSpan) (msg : Message) :
    (ts.ExtendSpan msg).DuringSpan msg.createdAt = true := by
  simp only [TrainedSpan.ExtendSpan, duringSpan_iff]
  split <;> (split <;> (simp_all; try omega))

theorem extendSpan_start_le (ts : TrainedSpan) (msg : Message) :
    (ts.ExtendSpan msg).start ≤ ts.start ∧ ts.stop ≤ (ts.ExtendSpan msg).stop := by
  simp only [TrainedSpan.ExtendSpan]
  split <;> split <;> simp_all <;> omega

theorem foldl_extendSpan_mono (msgs : List Message) :
    ∀ ts : TrainedSpan,
      (msgs.foldl TrainedSpan.ExtendSpan ts).start ≤ ts.start ∧
        ts.stop ≤ (msgs.foldl TrainedSpan.ExtendSpan ts).stop := by
  induction msgs with
  | nil => intro ts; exact ⟨le_refl _, le_refl _⟩
  | cons msg rest ih =>
    intro ts
    have h1 := extendSpan_start_le ts msg
    have h2 := ih (ts.ExtendSpan msg)
    exact ⟨le_trans h2.1 h1.1, le_trans h1.2 h2.2⟩

/-- After any `Brain.observe`, the span stored for the channel of the
observed message covers the creation time of that message. -/
theorem observe_covers (b : Brain) (msg : Message) :
    ∃ sp, (b.observe msg).trainedSpans msg.channelID = some sp ∧
      sp.DuringSpan msg.createdAt = true := by
  cases h : b.trainedSpans msg.channelID with
  | none =>
    refine ⟨makeSpan msg, ?_, duringSpan_makeSpan msg⟩
    simp [Brain.observe, h]
  | some sp =>
    by_cases hd : sp.DuringSpan msg.createdAt = true
    · exact ⟨sp, by simp [Brain.observe, h, hd], hd⟩
    · rw [Bool.not_eq_true] at hd
      refine ⟨sp.ExtendSpan msg, ?_, duringSpan_extendSpan sp msg⟩
      simp [Brain.observe, h, hd]

/-- A message whose channel span already covers its time leaves the whole
brain untouched (the early return of `Brain.observe`). -/
theorem observe_of_covered (b : Brain) (msg : Message) (sp : TrainedSpan)
    (h : b.trainedSpans msg.channelID = some sp)
    (hd : sp.DuringSpan msg.createdAt = true) :
    b.observe msg = b := by
  unfold Brain.observe
  rw [h]
  simp [hd]

/-! ## Claim C1: observation is idempotent -/

/-- C1.  Observation is idempotent: for every brain state and every message
`m`, a second `Brain.observe m` changes nothing — the Counts table after
the second call equals the Counts table after the first, because the first
call left the channel span covering the timestamp of `m`, so the
span-membership check returns early.  (The second conjunct records that
covering span.) -/
theorem c1_observe_idempotent (b : Brain) (msg : Message) :
    ((b.observe msg).observe msg).model.counts = (b.observe msg).model.counts ∧
      ∃ sp, (b.observe msg).trainedSpans msg.channelID = some sp ∧
        sp.DuringSpan msg.createdAt = true := by
  obtain ⟨sp, hsp, hdur⟩ := observe_covers b msg
  exact ⟨by rw [observe_of_covered (b.observe msg) msg sp hsp hdur], sp, hsp, hdur⟩

/-! ## Claim C7: span monotonicity and union bounds -/

/-- C7.  Span monotonicity: one `ExtendSpan` never raises the start nor
lowers the end, and over any sequence of `ExtendSpan` calls the start is
non-increasing and the end non-decreasing; `Union` yields the minimum
start and maximum end, each together with the boundary message id of the
span that furnished it. -/
theorem c7_span_monotone (ts other : TrainedSpan) (msg : Message) (msgs : List Message) :
    ((ts.ExtendSpan msg).start ≤ ts.start ∧ ts.stop ≤ (ts.ExtendSpan msg).stop) ∧
      ((msgs.foldl TrainedSpan.ExtendSpan ts).start ≤ ts.start ∧
        ts.stop ≤ (msgs.foldl TrainedSpan.ExtendSpan ts).stop) ∧
      (ts.Union other).start = min ts.start other.start ∧
      (ts.Union other).stop = max ts.stop other.stop ∧
      ((ts.Union other).start = ts.start ∧ (ts.Union other).startID = ts.startID ∨
        (ts.Union other).start = other.start ∧ (ts.Union other).startID = other.startID) ∧
      ((ts.Union other).stop = ts.stop ∧ (ts.Union other).stopID = ts.stopID ∨
        (ts.Union other).stop = other.stop ∧ (ts.Union other).stopID = other.stopID) := by
  refine ⟨extendSpan_start_le ts msg, foldl_extendSpan_mono msgs ts, ?_, ?_, ?_, ?_⟩ <;>
    · simp only [TrainedSpan.Union]
      split <;> split <;> simp_all <;> omega

/-! ## Claim C9: non-qualifying messages still mark the span -/

/-- C9.  A message that does not qualify for training (bot author or empty
content) whose channel span is absent or does not cover its timestamp
still leaves the Counts table (indeed the whole model) unchanged while
creating or extending the channel span to cover that timestamp; any later
qualifying message on the same channel whose timestamp falls inside the
resulting span is never trained (the whole brain is left unchanged). -/
theorem c9_unqualified_marks_span (b : Brain) (msg : Message)
    (h1 : shouldObserve msg = false)
    (h2 : spanAllows (b.trainedSpans msg.channelID) msg.createdAt = true) :
    (b.observe msg).model = b.model ∧
      ∃ sp, (b.observe msg).trainedSpans msg.channelID = some sp ∧
        sp.DuringSpan msg.createdAt = true ∧
        ∀ msg2 : Message, msg2.channelID = msg.channelID → shouldObserve msg2 = true →
          sp.DuringSpan msg2.createdAt = true → (b.observe msg).observe msg2 = b.observe msg := by
  obtain ⟨sp, hsp, hdur⟩ := observe_covers b msg
  refine ⟨?_, sp, hsp, hdur, ?_⟩
  · cases h : b.trainedSpans msg.channelID with
    | none => simp [Brain.observe, h, h1]
    | some sp' =>
      have hallow : sp'.DuringSpan msg.createdAt = false := by
        rw [h] at h2
        simpa [spanAllows] using h2
      simp [Brain.observe, h, h1, hallow]
  · intro msg2 hch _ hdur2
    apply observe_of_covered
    · rw [hch]; exact hsp
    · exact hdur2

/-- C9 witness: a concrete bot-authored message on a spanless channel; after
observing it the model is unchanged, and a concrete qualifying message at
the same timestamp on the same channel is a no-op. -/
theorem c9_unqualified_marks_span_witness :
    shouldObserve ⟨['h', 'i'], true, 7, 100, 50⟩ = false ∧
      spanAllows (newBrain.trainedSpans 7) 50 = true ∧
      (newBrain.observe ⟨['h', 'i'], true, 7, 100, 50⟩).model = newBrain.model ∧
      (newBrain.observe ⟨['h', 'i'], true, 7, 100, 50⟩).observe ⟨['y', 'o'], false, 7, 101, 50⟩ =
        newBrain.observe ⟨['h', 'i'], true, 7, 100, 50⟩ := by
  have h := c9_unqualified_marks_span newBrain ⟨['h', 'i'], true, 7, 100, 50⟩ (by decide) (by decide)
  obtain ⟨hm, sp, hsp, hdur, hnext⟩ := h
  exact ⟨by decide, by decide, hm, hnext ⟨['y', 'o'], false, 7, 101, 50⟩ rfl (by decide) hdur⟩

/-! ## Helper lemmas about the counts table -/

theorem bumpList_apply (ks : List (List Char)) :
    ∀ (c : List Char → ℕ) (k : List Char), bumpList c ks k = c k + occCount k ks := by
  induction ks with
  | nil => intro c k; simp [bumpList, occCount]
  | cons q rest ih =>
    intro c k
    show bumpList (setCount c q (c q + 1)) rest k = _
    rw [ih]
    by_cases h : k = q
    · subst h; simp [setCount, occCount]; omega
    · have h2 : ¬q = k := fun hh => h hh.symm
      simp [setCount, occCount, h, h2]

theorem dropList_apply (ks : List (List Char)) :
    ∀ (c : List Char → ℕ) (k : List Char), dropList c ks k = c k - occCount k ks := by
  induction ks with
  | nil => intro c k; simp [dropList, occCount]
  | cons q rest ih =>
    intro c k
    show dropList (if 0 < c q then setCount c q (c q - 1) else c) rest k = _
    rw [ih]
    by_cases h : k = q
    · subst h
      by_cases h0 : 0 < c k <;> simp [setCount, occCount, h0] <;> omega
    · have h2 : ¬q = k := fun hh => h hh.symm
      by_cases h0 : 0 < c q <;> simp [setCount, occCount, h, h2, h0]

theorem train_counts (m : NgramModel) (text : List Char) (h : text ≠ []) :
    (m.train text).counts = fun k => m.counts k + occCount k (trainKeys m text) := by
  funext k
  simp only [NgramModel.train, if_neg h]
  exact bumpList_apply _ _ _

theorem train_tok (m : NgramModel) (text : List Char) (h : text ≠ []) :
    (m.train text).tok = m.tok.Observe text := by
  simp [NgramModel.train, if_neg h]

theorem train_N (m : NgramModel) (text : List Char) : (m.train text).N = m.N := by
  unfold NgramModel.train; split <;> rfl

theorem forget_counts (m : NgramModel) (text : List Char) (h : text ≠ []) :
    (m.forget text).counts = fun k => m.counts k - occCount k (forgetKeys m text) := by
  funext k
  simp only [NgramModel.forget, if_neg h]
  exact dropList_apply _ _ _

theorem forget_tok (m : NgramModel) (text : List Char) : (m.forget text).tok = m.tok := by
  unfold NgramModel.forget; split <;> rfl

theorem forget_N (m : NgramModel) (text : List Char) : (m.forget text).N = m.N := by
  unfold NgramModel.forget; split <;> rfl

/-- After training, `forget` enumerates exactly the keys `train` bumped:
training already observed the text, so re-encoding resolves identically. -/
theorem forgetKeys_train (m : NgramModel) (text : List Char) (h : text ≠ []) :
    forgetKeys (m.train text) text = trainKeys m text := by
  simp [forgetKeys, trainKeys, train_tok m text h, train_N]

theorem forgetKeys_forget (m : NgramModel) (t text : List Char) :
    forgetKeys (m.forget t) text = forgetKeys m text := by
  simp [forgetKeys, forget_tok, forget_N]

/-! ## Claim C2: train/forget round-trip -/

/-- C2.  Train/forget round-trip: for every non-empty text `T` and every
model state, `forget T` after `train T` restores every entry of the Counts
table; and a second `forget T` only lowers each entry by its key
multiplicity in the enumeration, floored at zero (truncated subtraction),
so counts never go below zero however often `forget` is repeated. -/
theorem c2_train_forget_roundtrip (m : NgramModel) (T : List Char) (h : T ≠ []) :
    ((m.train T).forget T).counts = m.counts ∧
      (((m.train T).forget T).forget T).counts =
        fun k => m.counts k - occCount k (trainKeys m T) := by
  have hkeys : forgetKeys (m.train T) T = trainKeys m T := forgetKeys_train m T h
  have h1 : ((m.train T).forget T).counts = m.counts := by
    funext k
    rw [forget_counts _ T h, hkeys, train_counts m T h]
    dsimp only
    omega
  refine ⟨h1, ?_⟩
  funext k
  rw [forget_counts _ T h, forgetKeys_forget, hkeys, h1]

/-- C2 witness: the round-trip on a concrete model and text. -/
theorem c2_train_forget_roundtrip_witness :
    (['a'] ≠ ([] : List Char)) ∧
      ((newBrainModel.train ['a']).forget ['a']).counts = newBrainModel.counts ∧
      (((newBrainModel.train ['a']).forget ['a']).forget ['a']).counts =
        fun k => newBrainModel.counts k - occCount k (trainKeys newBrainModel ['a']) :=
  ⟨by decide, c2_train_forget_roundtrip newBrainModel ['a'] (by decide)⟩

/-! ## Claim C6: training enumeration -/

/-- C6 counterexample: the claim says every context length `n` in `0..N`
increments the decoded key of every contiguous `n`-length subsequence, but
the `n = 0` iteration enumerates no subsequence at all (`ngrams` returns
nothing for `n <= 0`), so the empty key — the decoded key of a 0-length
subsequence — is never incremented: after training "ab" it still counts 0,
not at least 1. -/
theorem c6_counterexample : trainC6.counts [] = 0 := by decide

/-- C6 (amended).  Training enumeration: for every non-empty text, `train`
observes the text, encodes it, appends the end-of-text symbol, and bumps
the decoded key of every contiguous `n`-length subsequence once per
occurrence for every order `n` in `1..N` (the `n = 0` iteration enumerates
nothing); concretely, training "ab" with `N = 3` on an empty tokenizer
with one special token yields vocabulary `['a','b']` and count 1 for the
keys "a", "b", "ab" and "ab<|endoftext|>", while the empty key stays 0. -/
theorem c6_training_enumeration (m : NgramModel) (T : List Char) (h : T ≠ []) :
    ((m.train T).counts = fun k => m.counts k + occCount k (trainKeys m T)) ∧
      (m.train T).tok = m.tok.Observe T ∧
      trainC6.tok.vocab = ['a', 'b'] ∧
      trainC6.counts ['a'] = 1 ∧
      trainC6.counts ['b'] = 1 ∧
      trainC6.counts ['a', 'b'] = 1 ∧
      trainC6.counts ('a' :: 'b' :: eotStr) = 1 ∧
      trainC6.counts [] = 0 :=
  ⟨train_counts m T h, train_tok m T h, by decide, by decide, by decide, by decide,
    by decide, by decide⟩

/-- C6 witness: the general enumeration applied to the concrete scenario. -/
theorem c6_training_enumeration_witness :
    (['a', 'b'] ≠ ([] : List Char)) ∧
      ((modelC6.train ['a', 'b']).counts =
        fun k => modelC6.counts k + occCount k (trainKeys modelC6 ['a', 'b'])) :=
  ⟨by decide, (c6_training_enumeration modelC6 ['a', 'b'] (by decide)).1⟩

/-! ## Claim C5: backoff lookup characterization -/

theorem suffixList_cons (h : ℤ) (t : List ℤ) :
    ((List.range (h :: t).length).map fun i => (h :: t).drop i) =
      (h :: t) :: ((List.range t.length).map fun i => t.drop i) := by
  rw [List.length_cons, List.range_succ_eq_map]
  simp [List.map_map, Function.comp_def]

theorem countOfSpec_cons (m : NgramModel) (h : ℤ) (t : List ℤ) (nMin : ℕ) :
    countOfSpec m (h :: t) nMin =
      if m.counts (m.tok.Decode (h :: t)) ≠ 0 ∨ (h :: t).length ≤ nMin
      then m.counts (m.tok.Decode (h :: t))
      else countOfSpec m t nMin := by
  unfold countOfSpec
  rw [suffixList_cons]
  by_cases hp : m.counts (m.tok.Decode (h :: t)) ≠ 0 ∨ (h :: t).length ≤ nMin
  · rw [List.find?_cons_of_pos _ (by simpa using hp), if_pos hp]
  · rw [List.find?_cons_of_neg _ (by simpa using hp), if_neg hp]

theorem countOf_cons (m : NgramModel) (a : ℤ) (t : List ℤ) (nMin : ℕ) :
    m.countOf (a :: t) nMin =
      if m.counts (m.tok.Decode (a :: t)) = 0 ∧ nMin < (a :: t).length
      then m.countOf t nMin else m.counts (m.tok.Decode (a :: t)) := rfl

theorem countOf_eq_countOfSpec (m : NgramModel) :
    ∀ (ctx : List ℤ) (nMin : ℕ), m.countOf ctx nMin = countOfSpec m ctx nMin := by
  intro ctx
  induction ctx with
  | nil => intro nMin; simp [NgramModel.countOf, countOfSpec]
  | cons h t ih =>
    intro nMin
    rw [countOfSpec_cons, countOf_cons]
    by_cases hc : m.counts (m.tok.Decode (h :: t)) = 0
    · by_cases hl : (h :: t).length ≤ nMin
      · rw [if_neg fun hh => Nat.not_lt.mpr hl hh.2, if_pos (Or.inr hl)]
      · rw [if_pos ⟨hc, Nat.not_le.mp hl⟩,
          if_neg fun hh => hh.elim (fun h1 => h1 hc) fun h1 => hl h1]
        exact ih nMin
    · rw [if_neg fun hh => hc hh.1, if_pos (Or.inl hc)]

/-- C5.  Backoff lookup: `countOf(context, minContextLen)` looks up the
count of the decoded context; while that count is zero and the context is
longer than `minContextLen` it drops the leftmost symbol and retries, and
it stops (yielding 0 when forced) once the context empties or
`minContextLen` is reached — equivalently, it agrees everywhere with the
first-stopping-suffix description `countOfSpec`. -/
theorem c5_countOf_backoff (m : NgramModel) (ctx : List ℤ) (nMin : ℕ) :
    m.countOf ctx nMin = countOfSpec m ctx nMin :=
  countOf_eq_countOfSpec m ctx nMin

/-! ## Claim C10: probs performs direct lookups only -/

theorem countOf_no_backoff (m : NgramModel) (ctx : List ℤ) (nMin : ℕ)
    (h : ctx ≠ []) (h2 : ctx.length ≤ nMin) :
    m.countOf ctx nMin = m.counts (m.tok.Decode ctx) := by
  cases ctx with
  | nil => exact absurd rfl h
  | cons a t => rw [countOf_cons, if_neg fun hh => Nat.not_lt.mpr h2 hh.2]

theorem countOf_eq_lookup (m : NgramModel) (ctx : List ℤ) (nMin : ℕ)
    (h2 : ctx.length ≤ nMin) :
    m.countOf ctx nMin = lookupNoBackoff m ctx := by
  cases hc : ctx with
  | nil => simp [NgramModel.countOf, lookupNoBackoff]
  | cons a t =>
    rw [← hc]
    rw [countOf_no_backoff m ctx nMin (by simp [hc]) h2, lookupNoBackoff, if_neg (by simp [hc])]

theorem probsContext_length (m : NgramModel) (text : List Char) :
    (m.probsContext text).length ≤ m.N - 1 := by
  simp only [NgramModel.probsContext, List.length_drop]
  omega

theorem probs_eq_probsDirect (m : NgramModel) (text : List Char) :
    m.probs text = probsDirect m text := by
  unfold NgramModel.probs probsDirect
  by_cases hcond : 1 ≤ m.N ∧ m.N - 1 ≤ (m.tok.Encode text).length
  · rw [if_pos hcond, if_pos hcond]
    have hclen : (m.probsContext text).length ≤ m.N :=
      le_trans (probsContext_length m text) (Nat.sub_le _ _)
    have htot : probsTotal m (m.probsContext text) = probsDirectTotal m (m.probsContext text) := by
      unfold probsTotal probsDirectTotal
      rw [countOf_eq_lookup m _ m.N hclen]
    congr 1
    unfold probsEntries probsDirectEntries
    congr 1
    funext i
    have hexti : (m.probsContext text ++ [(i : ℤ)]).length ≤ m.N := by
      have := probsContext_length m text
      have h1 := hcond.1
      simp only [List.length_append, List.length_cons, List.length_nil]
      omega
    rw [htot, countOf_eq_lookup m _ m.N hexti]
  · rw [if_neg hcond, if_neg hcond]

/-- C10.  For every non-empty context no longer than `minContextLen`,
`countOf` is the single direct lookup of the decoded key (no backoff); and
`probs` — which always passes `nMin = N` with contexts of length `N-1` and
`N` — agrees everywhere with its direct-lookup mirror, so the backoff loop
never drops a symbol during probability estimation and a zero direct count
contributes 0. -/
theorem c10_probs_no_backoff (m : NgramModel) :
    (∀ (ctx : List ℤ) (nMin : ℕ), ctx ≠ [] → ctx.length ≤ nMin →
      m.countOf ctx nMin = m.counts (m.tok.Decode ctx)) ∧
      ∀ text, m.probs text = probsDirect m text :=
  ⟨fun ctx nMin h h2 => countOf_no_backoff m ctx nMin h h2,
    fun text => probs_eq_probsDirect m text⟩

/-- C10 witness: a concrete direct lookup and a concrete probs agreement. -/
theorem c10_probs_no_backoff_witness :
    (([(1 : ℤ)] ≠ []) ∧ [(1 : ℤ)].length ≤ 5) ∧
      newBrainModel.countOf [(1 : ℤ)] 5 =
        newBrainModel.counts (newBrainModel.tok.Decode [(1 : ℤ)]) ∧
      newBrainModel.probs ['a'] = probsDirect newBrainModel ['a'] :=
  ⟨⟨by decide, by decide⟩,
    (c10_probs_no_backoff newBrainModel).1 [(1 : ℤ)] 5 (by decide) (by decide),
    (c10_probs_no_backoff newBrainModel).2 ['a']⟩

/-! ## Claim C3: distribution validity -/

theorem encode_length (tk : CharTokenizer) (text : List Char) :
    (tk.Encode text).length = text.length := by
  simp [CharTokenizer.Encode]

theorem sum_map_range_add_div (g : ℕ → ℚ) (s T : ℚ) :
    ∀ n : ℕ, ((List.range n).map fun i => (g i + s) / T).sum =
      (((List.range n).map g).sum + n * s) / T := by
  intro n
  induction n with
  | zero => simp
  | succ k ih =>
    rw [List.range_succ, List.map_append, List.map_append, List.sum_append, List.sum_append, ih]
    simp only [List.map_cons, List.map_nil, List.sum_cons, List.sum_nil, add_zero]
    rw [div_add_div_same]
    congr 1
    push_cast
    ring

/-- C3 counterexample: the claim promises a result vector for every input
text including text shorter than `N-1` symbols, but on the fresh brain
model (`N = 5`) the two-symbol text "ab" makes the Go slice expression
`context[len(context)-m.N+1:]` use the negative low bound `-2`, a run-time
abort — modelled as `none`, not a vector. -/
theorem c3_counterexample : newBrainModel.probs ['a', 'b'] = none := by decide

/-- C3 (amended).  For every text whose encoding has at least `N-1` symbols
(with `N ≥ 1`) and non-negative smoothing, `probs` returns (without
aborting) the vector `probsEntries` of length `VocabSize` with every entry
non-negative; when moreover the smoothing is positive, the vocabulary is
non-empty and the counts are balanced for the queried context (the context
count equals the sum of its one-symbol extension counts — which holds for
freshly trained states but can fail after unmatched forgets), the entries
sum to exactly 1. -/
theorem c3_probs_distribution (m : NgramModel) (text : List Char)
    (h1 : 1 ≤ m.N) (h2 : m.N - 1 ≤ (m.tok.Encode text).length)
    (h3 : 0 ≤ m.smoothing) :
    m.probs text = some (probsEntries m (m.probsContext text)) ∧
      (probsEntries m (m.probsContext text)).length = m.tok.VocabSize ∧
      (∀ x ∈ probsEntries m (m.probsContext text), 0 ≤ x) ∧
      (0 < m.smoothing → 1 ≤ m.tok.VocabSize →
        ((List.range m.tok.VocabSize).map fun i : ℕ =>
            m.countOf (m.probsContext text ++ [(i : ℤ)]) m.N).sum =
          m.countOf (m.probsContext text) m.N →
        (probsEntries m (m.probsContext text)).sum = 1) := by
  refine ⟨?_, ?_, ?_, ?_⟩
  · unfold NgramModel.probs
    rw [if_pos ⟨h1, h2⟩]
  · simp [probsEntries]
  · intro x hx
    unfold probsEntries at hx
    simp only [List.mem_map] at hx
    obtain ⟨i, -, rfl⟩ := hx
    split
    · next hT =>
      exact div_nonneg (add_nonneg (Nat.cast_nonneg _) h3) (le_of_lt hT)
    · exact le_refl 0
  · intro hs hV hbal
    have hT : 0 < probsTotal m (m.probsContext text) := by
      unfold probsTotal
      have hVpos : (0 : ℚ) < (m.tok.VocabSize : ℚ) := by exact_mod_cast hV
      have hmul : 0 < (m.tok.VocabSize : ℚ) * m.smoothing := mul_pos hVpos hs
      have hC : (0 : ℚ) ≤ (m.countOf (m.probsContext text) m.N : ℚ) := Nat.cast_nonneg _
      linarith
    have hbalQ : ((List.range m.tok.VocabSize).map fun i : ℕ =>
        (m.countOf (m.probsContext text ++ [(i : ℤ)]) m.N : ℚ)).sum =
        (m.countOf (m.probsContext text) m.N : ℚ) := by
      rw [← hbal]
      push_cast [List.map_map]
      rfl
    unfold probsEntries
    simp only [if_pos hT]
    rw [sum_map_range_add_div (fun i : ℕ => (m.countOf (m.probsContext text ++ [(i : ℤ)]) m.N : ℚ))
      m.smoothing (probsTotal m (m.probsContext text)) m.tok.VocabSize]
    rw [hbalQ]
    exact div_self (ne_of_gt hT)

/-- C3 witness: the amended claim on the concrete trained model, including
the concrete sum-to-one. -/
theorem c3_probs_distribution_witness :
    (1 ≤ trainC3.N) ∧ (trainC3.N - 1 ≤ (trainC3.tok.Encode ['a', 'b']).length) ∧
      (0 ≤ trainC3.smoothing) ∧
      trainC3.probs ['a', 'b'] = some (probsEntries trainC3 (trainC3.probsContext ['a', 'b'])) ∧
      (probsEntries trainC3 (trainC3.probsContext ['a', 'b'])).sum = 1 := by
  have h := c3_probs_distribution trainC3 ['a', 'b'] (by decide) (by decide) (by decide)
  exact ⟨by decide, by decide, by decide, h.1, h.2.2.2 (by decide) (by decide) (by decide)⟩

/-! ## Claim C4: generation terminates (or aborts on a short multibyte seed) -/

theorem decode_single_length (tk : CharTokenizer) (hS : tk.special.length = 1)
    (k : ℕ) (hk : 1 ≤ k) : (tk.Decode [(k : ℤ)]).length = 1 := by
  unfold CharTokenizer.Decode
  simp only [List.foldr_cons, List.foldr_nil, List.append_nil]
  split
  · simp
  · split
    · simp
    · next hlow hhigh =>
      exfalso
      rw [hS] at hhigh
      exact hhigh (by exact_mod_cast hk)

theorem genLoop_some (m : NgramModel) (hS : m.tok.special.length = 1) (hN : 1 ≤ m.N) :
    ∀ (fuel : ℕ) (out : List Char) (us : ℕ → ℚ), m.N - 1 ≤ out.length →
      ∃ res, genLoop m fuel out us = some res ∧ res.length ≤ out.length + fuel := by
  intro fuel
  induction fuel with
  | zero => intro out us h; exact ⟨out, rfl, by omega⟩
  | succ k ih =>
    intro out us h
    have hp : m.probs out = some (probsEntries m (m.probsContext out)) := by
      unfold NgramModel.probs
      rw [if_pos ⟨hN, by rw [encode_length]; exact h⟩]
    by_cases hz : sample (probsEntries m (m.probsContext out)) (us 0) = 0
    · refine ⟨out, ?_, by omega⟩
      simp [genLoop, hp, hz]
    · have hlen1 : (out ++ m.tok.Decode
          [(sample (probsEntries m (m.probsContext out)) (us 0) : ℤ)]).length = out.length + 1 := by
        rw [List.length_append,
          decode_single_length m.tok hS _ (Nat.one_le_iff_ne_zero.mpr hz)]
      obtain ⟨res, hres, hle⟩ := ih
        (out ++ m.tok.Decode [(sample (probsEntries m (m.probsContext out)) (us 0) : ℤ)])
        (fun n => us (n + 1)) (by omega)
      refine ⟨res, ?_, ?_⟩
      · simp only [genLoop, hp]
        rw [if_neg hz]
        exact hres
      · rw [hlen1] at hle
        omega

theorem sum_nonneg_list (ps : List ℚ) (h : ∀ x ∈ ps, 0 ≤ x) : 0 ≤ ps.sum := by
  induction ps with
  | nil => simp
  | cons p rest ih =>
    rw [List.sum_cons]
    have hp : 0 ≤ p := h p (by simp)
    have hr : 0 ≤ rest.sum := ih fun x hx => h x (by simp [hx])
    linarith

theorem all_zero_of_sum_zero (ps : List ℚ) (h : ∀ x ∈ ps, 0 ≤ x) (hs : ps.sum = 0) :
    ∀ x ∈ ps, x = 0 := by
  induction ps with
  | nil => simp
  | cons p rest ih =>
    rw [List.sum_cons] at hs
    have hp : 0 ≤ p := h p (by simp)
    have hr : 0 ≤ rest.sum := sum_nonneg_list rest fun x hx => h x (by simp [hx])
    have hp0 : p = 0 := by linarith
    have hrs : rest.sum = 0 := by linarith
    intro x hx
    rcases List.mem_cons.mp hx with hx1 | hx2
    · rw [hx1, hp0]
    · exact ih (fun y hy => h y (by simp [hy])) hrs x hx2

theorem sampleLoop_all_zero (ps : List ℚ) :
    (∀ x ∈ ps, x = 0) → ∀ i, sampleLoop ps 0 i = 0 := by
  induction ps with
  | nil => intro _ i; rfl
  | cons p rest ih =>
    intro h i
    have hp : p = 0 := h p (by simp)
    simp only [sampleLoop, hp]
    rw [if_neg (lt_irrefl 0), sub_zero]
    exact ih (fun x hx => h x (by simp [hx])) (i + 1)

theorem sample_degenerate (ps : List ℚ) (u : ℚ) (h : ∀ x ∈ ps, 0 ≤ x) (hs : ps.sum = 0) :
    sample ps u = 0 := by
  unfold sample
  by_cases he : ps = []
  · rw [if_pos he]
  · rw [if_neg he, hs, mul_zero]
    exact sampleLoop_all_zero ps (all_zero_of_sum_zero ps h hs) 0

/-- C4 counterexample: the claim promises a return for every seed, but a
three-symbol seed of two-byte runes passes the byte-length guard
(`6 >= N-1 = 4`) while encoding to only 3 symbols, so the first `probs`
call inside the loop hits the negative slice bound and the process aborts
(modelled as `none`) instead of returning. -/
theorem c4_counterexample :
    newBrainModel.generate ['é', 'é', 'é'] 1 (fun _ => 0) = none := by decide

/-- C4 (amended).  On the brain configuration (single special token), for
every seed that either encodes to at least `N-1` symbols (with `N ≥ 1`) or
fails the byte-length guard, `generate` returns within `length` sampled
symbols — each sampled non-end-of-text symbol appends exactly one rune, so
the result is at most `length` runes beyond the seed — and a zero-mass (or
empty) distribution makes `sample` return the end-of-text id 0
deterministically, so generation never loops unboundedly. -/
theorem c4_generate_terminates (m : NgramModel) (seed : List Char) (length : ℕ) (us : ℕ → ℚ)
    (hS : m.tok.special.length = 1)
    (h : (1 ≤ m.N ∧ m.N - 1 ≤ seed.length) ∨ (byteLen seed : ℤ) < (m.N : ℤ) - 1) :
    (∃ out, m.generate seed length us = some out ∧ out.length ≤ seed.length + length) ∧
      ∀ (ps : List ℚ) (u : ℚ), (∀ x ∈ ps, 0 ≤ x) → ps.sum = 0 → sample ps u = 0 := by
  constructor
  · unfold NgramModel.generate
    by_cases hb : (byteLen seed : ℤ) < (m.N : ℤ) - 1
    · rw [if_pos hb]
      exact ⟨[], rfl, by simp⟩
    · rw [if_neg hb]
      rcases h with ⟨hN, hlen⟩ | hb2
      · exact genLoop_some m hS hN length seed us hlen
      · exact absurd hb2 hb
  · exact fun ps u h1 h2 => sample_degenerate ps u h1 h2

/-- C4 witness: generation on a concrete 4-symbol seed with the fresh brain
model, and the degenerate-sample fallback on a concrete zero vector. -/
theorem c4_generate_terminates_witness :
    newBrainModel.tok.special.length = 1 ∧
      (1 ≤ newBrainModel.N ∧
        newBrainModel.N - 1 ≤ (['a', 'b', 'c', 'd'] : List Char).length) ∧
      (∃ out, newBrainModel.generate ['a', 'b', 'c', 'd'] 3 (fun _ => 0) = some out ∧
        out.length ≤ (['a', 'b', 'c', 'd'] : List Char).length + 3) ∧
      sample [0, 0] (1 / 2) = 0 := by
  have h := c4_generate_terminates newBrainModel ['a', 'b', 'c', 'd'] 3 (fun _ => 0)
    (by decide) (Or.inl ⟨by decide, by decide⟩)
  refine ⟨by decide, ⟨by decide, by decide⟩, h.1, h.2 [0, 0] (1 / 2) ?_ (by norm_num)⟩
  intro x hx
  rcases List.mem_cons.mp hx with h1 | h2
  · rw [h1]
  · simp only [List.mem_singleton] at h2
    rw [h2]

/-! ## Claim C8: the short-seed guard counts bytes, not symbols -/

/-- C8 counterexample: a seed of two two-byte runes is shorter than
`N-1 = 4` symbols, yet `generate` does not return the empty string
immediately — the guard compares the BYTE length 4, which is not below 4,
so with `length = 0` the seed itself is returned. -/
theorem c8_counterexample :
    (['é', 'é'] : List Char).length < newBrainModel.N - 1 ∧
      newBrainModel.generate ['é', 'é'] 0 (fun _ => 0) ≠ some [] := by
  exact ⟨by decide, by decide⟩

/-- C8 (amended).  For every seed whose BYTE length is below `N-1` (the Go
`len(seed) < m.N-1` check) and every length, `generate` returns the empty
string immediately, without consulting the model. -/
theorem c8_short_seed (m : NgramModel) (seed : List Char) (length : ℕ) (us : ℕ → ℚ)
    (h : (byteLen seed : ℤ) < (m.N : ℤ) - 1) :
    m.generate seed length us = some [] := by
  unfold NgramModel.generate
  rw [if_pos h]

/-- C8 witness: a one-byte seed below the `N-1 = 4` bound returns empty. -/
theorem c8_short_seed_witness :
    ((byteLen ['a'] : ℤ) < (newBrainModel.N : ℤ) - 1) ∧
      newBrainModel.generate ['a'] 9 (fun _ => 0) = some [] :=
  ⟨by decide, c8_short_seed newBrainModel ['a'] 9 (fun _ => 0) (by decide)⟩
